import Mathlib

/-
Shallow embedding of the core of the wtfleming/rust-ray-tracer repository.

Floating-point (f64) values are modelled as real numbers; the epsilon
comparison discipline of the source (mathf::approximately) is carried over
verbatim.  Matrices are modelled as functions over Fin n (the source stores a
Vec<Vec<f64>>, whose allocation shape is modelled separately for the safety
claim about matrix::new).  Fallible operations (matrix inversion, shading on a
world without a light) return Option.
-/

namespace RayTracer

/-- EPSILON constant from src/mathf/mod.rs (0.00001). -/
noncomputable def EPSILON : ℝ := 1 / 100000

/-- approximately from src/mathf/mod.rs: (a - b).abs() < EPSILON. -/
def approximately (a b : ℝ) : Prop := |a - b| < EPSILON

theorem EPSILON_pos : 0 < EPSILON := by norm_num [EPSILON]

theorem approximately_refl (a : ℝ) : approximately a a := by
  simp [approximately, EPSILON_pos]

/-! Matrix kernel from src/mathf/matrix.rs.  A square n-matrix of f64 is
modelled as Matrix (Fin n) (Fin n) ℝ; smaller sizes appear transiently in the
cofactor recursion, exactly as in the source. -/

/-- Index adjustment of Matrix::submatrix: a copied row/column index i is
shifted past the removed index (if actual >= remove then actual + 1). -/
def skipIdx {n : ℕ} (remove : Fin (n + 1)) (i : Fin n) : Fin (n + 1) :=
  if remove.val ≤ i.val then ⟨i.val + 1, Nat.succ_lt_succ i.isLt⟩
  else ⟨i.val, Nat.lt_succ_of_lt i.isLt⟩

/-- Matrix::submatrix: copy with row r and column c removed. -/
def submatrix {n : ℕ} (A : Matrix (Fin (n + 1)) (Fin (n + 1)) ℝ)
    (remove_row remove_col : Fin (n + 1)) : Matrix (Fin n) (Fin n) ℝ :=
  Matrix.of fun row col => A (skipIdx remove_row row) (skipIdx remove_col col)

/-- Matrix::determinant: base case 2x2 is ad - bc, otherwise cofactor
expansion along row 0 (the source's cofactor call is inlined here so that the
recursion is structural; the standalone cofactor below is proved to agree). -/
noncomputable def determinant : {n : ℕ} → Matrix (Fin n) (Fin n) ℝ → ℝ
  | 0, _ => 0
  | n + 1, A =>
    if n + 1 = 2 then A 0 0 * A 1 1 - A 0 1 * A 1 0
    else
      ∑ col : Fin (n + 1), A 0 col *
        (if ((0 : ℕ) + col.val) % 2 = 1 then -determinant (submatrix A 0 col)
         else determinant (submatrix A 0 col))

/-- Matrix::minor: determinant of the submatrix at (row, col). -/
noncomputable def minor {n : ℕ} (A : Matrix (Fin (n + 1)) (Fin (n + 1)) ℝ)
    (row col : Fin (n + 1)) : ℝ :=
  determinant (submatrix A row col)

/-- Matrix::cofactor: the minor, negated when row + col is odd. -/
noncomputable def cofactor {n : ℕ} (A : Matrix (Fin (n + 1)) (Fin (n + 1)) ℝ)
    (row col : Fin (n + 1)) : ℝ :=
  if (row.val + col.val) % 2 = 1 then -(minor A row col) else minor A row col

/-- Matrix::is_invertible: approximately(determinant, 0.0) == false. -/
def is_invertible {n : ℕ} (A : Matrix (Fin n) (Fin n) ℝ) : Prop :=
  ¬ approximately (determinant A) 0

open Classical in
/-- Matrix::inverse: panics ("To inverse a matrix it must be invertible",
modelled as none) unless is_invertible; otherwise the element written at
data[col][row] is cofactor(row, col) / determinant. -/
noncomputable def inverse {n : ℕ} (A : Matrix (Fin (n + 1)) (Fin (n + 1)) ℝ) :
    Option (Matrix (Fin (n + 1)) (Fin (n + 1)) ℝ) :=
  if approximately (determinant A) 0 then none
  else some (Matrix.of fun col row => cofactor A row col / determinant A)

/-- Matrix::multiply_4x4 with the source's explicit four-term dot product. -/
noncomputable def multiply_4x4 (A B : Matrix (Fin 4) (Fin 4) ℝ) : Matrix (Fin 4) (Fin 4) ℝ :=
  Matrix.of fun row col =>
    A row 0 * B 0 col + A row 1 * B 1 col + A row 2 * B 2 col + A row 3 * B 3 col

/-- matrix::identity_4x4: zeros with ones on the diagonal. -/
noncomputable def identity_4x4 : Matrix (Fin 4) (Fin 4) ℝ :=
  Matrix.of fun row col => if row = col then 1 else 0

/-- impl PartialEq for Matrix: element-wise approximate equality (the
dimension check of the source is enforced by the index types here). -/
def matrix_approx_eq {n : ℕ} (A B : Matrix (Fin n) (Fin n) ℝ) : Prop :=
  ∀ row col, approximately (A row col) (B row col)

theorem matrix_approx_eq_of_eq {n : ℕ} {A B : Matrix (Fin n) (Fin n) ℝ}
    (h : A = B) : matrix_approx_eq A B := by
  subst h; intro row col; exact approximately_refl _

theorem skipIdx_eq_succAbove {n : ℕ} (r : Fin (n + 1)) (i : Fin n) :
    skipIdx r i = r.succAbove i := by
  by_cases h : r.val ≤ i.val
  · rw [skipIdx, if_pos h, Fin.succAbove_of_le_castSucc]
    · rfl
    · simpa [Fin.le_def] using h
  · rw [skipIdx, if_neg h, Fin.succAbove_of_castSucc_lt]
    · rfl
    · simp only [Fin.lt_def, Fin.coe_castSucc]
      omega

theorem submatrix_eq {n : ℕ} (A : Matrix (Fin (n + 1)) (Fin (n + 1)) ℝ)
    (r c : Fin (n + 1)) :
    submatrix A r c = A.submatrix r.succAbove c.succAbove := by
  ext i j
  simp [submatrix, Matrix.submatrix_apply, skipIdx_eq_succAbove]

theorem determinant_succ {n : ℕ} (A : Matrix (Fin (n + 1)) (Fin (n + 1)) ℝ) :
    determinant A =
      if n + 1 = 2 then A 0 0 * A 1 1 - A 0 1 * A 1 0
      else
        ∑ col : Fin (n + 1), A 0 col *
          (if ((0 : ℕ) + col.val) % 2 = 1 then -determinant (submatrix A 0 col)
           else determinant (submatrix A 0 col)) := rfl

theorem determinant_two (A : Matrix (Fin 2) (Fin 2) ℝ) :
    determinant A = A 0 0 * A 1 1 - A 0 1 * A 1 0 := by
  rw [determinant_succ]
  simp

/-- The source determinant agrees with the mathematical determinant for every
square size at least 2 (the sizes the program ever passes to it). -/
theorem determinant_eq_det :
    ∀ (n : ℕ) (A : Matrix (Fin (n + 2)) (Fin (n + 2)) ℝ),
      determinant A = A.det := by
  intro n
  induction n with
  | zero =>
    intro A
    rw [Matrix.det_fin_two, determinant_two]
  | succ m ih =>
    intro A
    rw [Matrix.det_succ_row_zero, determinant_succ, if_neg (by omega)]
    refine Finset.sum_congr rfl fun c _ => ?_
    have hsub : submatrix A 0 c = A.submatrix Fin.succ c.succAbove := by
      rw [submatrix_eq]
      ext i j
      rw [Matrix.submatrix_apply, Matrix.submatrix_apply, Fin.zero_succAbove]
    rw [hsub, ih]
    rcases Nat.even_or_odd c.val with he | ho
    · have h0 : ((0 : ℕ) + c.val) % 2 ≠ 1 := by
        have := Nat.even_iff.mp he
        omega
      rw [if_neg h0, he.neg_one_pow]
      ring
    · have h1 : ((0 : ℕ) + c.val) % 2 = 1 := by
        have := Nat.odd_iff.mp ho
        omega
      rw [if_pos h1, ho.neg_one_pow]
      ring

/-- The source cofactor is the transposed entry of the mathematical adjugate,
for sizes at least 3 (so in particular for the 4x4 matrices of the program). -/
theorem cofactor_eq_adjugate {m : ℕ} (A : Matrix (Fin (m + 3)) (Fin (m + 3)) ℝ)
    (r c : Fin (m + 3)) : cofactor A r c = A.adjugate c r := by
  rw [Matrix.adjugate_fin_succ_eq_det_submatrix]
  rw [cofactor, minor, submatrix_eq, determinant_eq_det]
  rcases Nat.even_or_odd (r.val + c.val) with he | ho
  · rw [if_neg (by have := Nat.even_iff.mp he; omega), he.neg_one_pow]
    ring
  · rw [if_pos (by have := Nat.odd_iff.mp ho; omega), ho.neg_one_pow]
    ring

theorem identity_4x4_eq_one : identity_4x4 = (1 : Matrix (Fin 4) (Fin 4) ℝ) := by
  ext i j
  simp [identity_4x4, Matrix.one_apply]

theorem multiply_4x4_eq_mul (A B : Matrix (Fin 4) (Fin 4) ℝ) :
    multiply_4x4 A B = A * B := by
  ext i j
  rw [Matrix.mul_apply, Fin.sum_univ_four]
  rfl

theorem det_ne_zero_of_not_approx {n : ℕ} {A : Matrix (Fin (n + 2)) (Fin (n + 2)) ℝ}
    (h : ¬ approximately (determinant A) 0) : A.det ≠ 0 := by
  intro h0
  apply h
  rw [determinant_eq_det, h0]
  exact approximately_refl 0

/-- Extract the algebraic content of Matrix::inverse: a returned matrix is the
adjugate scaled by the reciprocal of the determinant. -/
theorem inverse_eq_smul_adjugate (A N : Matrix (Fin 4) (Fin 4) ℝ)
    (h : inverse A = some N) :
    N = (A.det)⁻¹ • A.adjugate ∧ ¬ approximately (determinant A) 0 := by
  by_cases hap : approximately (determinant A) 0
  · rw [inverse, if_pos hap] at h
    exact absurd h (by simp)
  · rw [inverse, if_neg hap] at h
    refine ⟨?_, hap⟩
    rw [Option.some_inj] at h
    subst h
    ext i j
    rw [Matrix.smul_apply]
    show cofactor A j i / determinant A = _
    rw [cofactor_eq_adjugate (m := 1) A j i, determinant_eq_det, div_eq_inv_mul,
      smul_eq_mul]

theorem determinant_identity_4x4 : determinant identity_4x4 = 1 := by
  rw [determinant_eq_det, identity_4x4_eq_one, Matrix.det_one]

theorem identity_4x4_not_approx_zero :
    ¬ approximately (determinant identity_4x4) 0 := by
  rw [determinant_identity_4x4, approximately]
  norm_num [EPSILON]

theorem inverse_identity_4x4 :
    inverse identity_4x4 =
      some (Matrix.of fun col row =>
        cofactor identity_4x4 row col / determinant identity_4x4) := by
  rw [inverse, if_neg identity_4x4_not_approx_zero]

/-- C1: for every 4x4 matrix A, inverse(A) reports a "not invertible" error
exactly when |determinant(A)| is within EPSILON of zero; otherwise the
returned matrix has element [c][r] = cofactor(A, r, c) / determinant(A) (the
adjugate transpose folded into the index assignment). -/
theorem c1_inverse_spec (A : Matrix (Fin 4) (Fin 4) ℝ) :
    (inverse A = none ↔ approximately (determinant A) 0) ∧
    (∀ M, inverse A = some M →
      ∀ r c, M c r = cofactor A r c / determinant A) := by
  constructor
  · constructor
    · intro h
      by_contra hap
      rw [inverse, if_neg hap] at h
      exact absurd h (by simp)
    · intro hap
      rw [inverse, if_pos hap]
  · intro M hM r c
    by_cases hap : approximately (determinant A) 0
    · rw [inverse, if_pos hap] at hM
      exact absurd hM (by simp)
    · rw [inverse, if_neg hap] at hM
      rw [Option.some_inj] at hM
      subst hM
      rfl

/-- Witness for C1 at the identity matrix. -/
theorem c1_inverse_spec_witness :
    (Matrix.of fun col row =>
        cofactor identity_4x4 row col / determinant identity_4x4) 0 0 =
      cofactor identity_4x4 0 0 / determinant identity_4x4 :=
  (c1_inverse_spec identity_4x4).2 _ inverse_identity_4x4 0 0

theorem mul_inverse_eq_one {M N : Matrix (Fin 4) (Fin 4) ℝ}
    (h : inverse M = some N) : M * N = 1 := by
  obtain ⟨hN, hne⟩ := inverse_eq_smul_adjugate M N h
  have hdet : M.det ≠ 0 := det_ne_zero_of_not_approx (n := 2) hne
  rw [hN, Matrix.mul_smul, Matrix.mul_adjugate, smul_smul,
    inv_mul_cancel₀ hdet, one_smul]

/-- C2: for every invertible 4x4 matrix M with inverse N,
multiply_4x4(M, N) is approximately (element-wise, within EPSILON) the
identity; and for invertible A, B with inverse(B) = N,
multiply_4x4(multiply_4x4(A, B), N) is approximately A. -/
theorem c2_inverse_round_trip :
    (∀ M N : Matrix (Fin 4) (Fin 4) ℝ, is_invertible M → inverse M = some N →
      matrix_approx_eq (multiply_4x4 M N) identity_4x4) ∧
    (∀ A B N : Matrix (Fin 4) (Fin 4) ℝ,
      is_invertible A → is_invertible B → inverse B = some N →
      matrix_approx_eq (multiply_4x4 (multiply_4x4 A B) N) A) := by
  constructor
  · intro M N _ hN
    apply matrix_approx_eq_of_eq
    rw [multiply_4x4_eq_mul, mul_inverse_eq_one hN, identity_4x4_eq_one]
  · intro A B N _ _ hN
    apply matrix_approx_eq_of_eq
    rw [multiply_4x4_eq_mul, multiply_4x4_eq_mul, mul_assoc,
      mul_inverse_eq_one hN, mul_one]

/-- Witness for C2 at the identity matrix. -/
theorem c2_inverse_round_trip_witness :
    matrix_approx_eq
      (multiply_4x4 identity_4x4
        (Matrix.of fun col row =>
          cofactor identity_4x4 row col / determinant identity_4x4))
      identity_4x4 ∧
    matrix_approx_eq
      (multiply_4x4 (multiply_4x4 identity_4x4 identity_4x4)
        (Matrix.of fun col row =>
          cofactor identity_4x4 row col / determinant identity_4x4))
      identity_4x4 :=
  ⟨c2_inverse_round_trip.1 _ _ identity_4x4_not_approx_zero inverse_identity_4x4,
   c2_inverse_round_trip.2 _ _ _ identity_4x4_not_approx_zero
     identity_4x4_not_approx_zero inverse_identity_4x4⟩

/-! Allocation shape of matrix::new.  The source type stores
num_rows, num_cols and a Vec<Vec<f64>> grid; matrix::new(num_rows, num_cols)
allocates vec![vec![0.0; num_rows]; num_cols]. -/

structure MatrixData where
  num_rows : ℕ
  num_cols : ℕ
  data : List (List ℝ)

/-- matrix::new from src/mathf/matrix.rs: the outer vector has num_cols
entries and each inner row vector has num_rows zeros. -/
def matrix_new (num_rows num_cols : ℕ) : MatrixData :=
  { num_rows := num_rows
    num_cols := num_cols
    data := List.replicate num_cols (List.replicate num_rows 0) }

/-- An access data[row][col] stays in bounds of the allocated grid. -/
def in_bounds (m : MatrixData) (row col : ℕ) : Prop :=
  row < m.data.length ∧ col < (m.data.getD row []).length

theorem in_bounds_matrix_new (num_rows num_cols row col : ℕ) :
    in_bounds (matrix_new num_rows num_cols) row col ↔
      row < num_cols ∧ col < num_rows := by
  unfold in_bounds matrix_new
  simp only [List.length_replicate, List.getD_eq_getElem?_getD,
    List.getElem?_replicate]
  constructor
  · rintro ⟨h1, h2⟩
    rw [if_pos h1] at h2
    simp only [Option.getD_some, List.length_replicate] at h2
    exact ⟨h1, h2⟩
  · rintro ⟨h1, h2⟩
    refine ⟨h1, ?_⟩
    rw [if_pos h1]
    simpa using h2

/-- C10: matrix::new(r, c) allocates the grid transposed relative to the
declared dimensions (outer length c, inner length r), so a declared access
data[row][col] with row < r and col < c is in bounds exactly when row < c and
col < r; all declared accesses are in bounds when the matrix is square, and
(for matrices with at least one declared cell) only then. -/
theorem c10_matrix_new_transposed (num_rows num_cols row col : ℕ)
    (hrow : row < num_rows) (hcol : col < num_cols) :
    ((matrix_new num_rows num_cols).data.length = num_cols ∧
      ∀ rowList ∈ (matrix_new num_rows num_cols).data,
        rowList.length = num_rows) ∧
    (in_bounds (matrix_new num_rows num_cols) row col ↔
      row < num_cols ∧ col < num_rows) ∧
    (num_rows = num_cols → in_bounds (matrix_new num_rows num_cols) row col) ∧
    ((∀ r c, r < num_rows → c < num_cols →
        in_bounds (matrix_new num_rows num_cols) r c) → num_rows = num_cols) := by
  refine ⟨⟨by simp [matrix_new], ?_⟩, in_bounds_matrix_new _ _ _ _, ?_, ?_⟩
  · intro rowList hmem
    rw [List.eq_of_mem_replicate hmem]
    exact List.length_replicate _ _
  · intro hsq
    rw [in_bounds_matrix_new]
    omega
  · intro hall
    rcases lt_trichotomy num_rows num_cols with hlt | heq | hgt
    · have h := (in_bounds_matrix_new num_rows num_cols 0 num_rows).mp
        (hall 0 num_rows (by omega) hlt)
      omega
    · exact heq
    · have h := (in_bounds_matrix_new num_rows num_cols num_cols 0).mp
        (hall num_cols 0 hgt (by omega))
      omega

/-- Witness for C10 at a 2x3 allocation and the declared access (1, 2). -/
theorem c10_matrix_new_transposed_witness :
    (1 < 2 ∧ 2 < 3) ∧
    (((matrix_new 2 3).data.length = 3 ∧
      ∀ rowList ∈ (matrix_new 2 3).data, rowList.length = 2) ∧
    (in_bounds (matrix_new 2 3) 1 2 ↔ 1 < 3 ∧ 2 < 2) ∧
    (2 = 3 → in_bounds (matrix_new 2 3) 1 2) ∧
    ((∀ r c, r < 2 → c < 3 → in_bounds (matrix_new 2 3) r c) → 2 = 3)) :=
  ⟨⟨by norm_num, by norm_num⟩,
    c10_matrix_new_transposed 2 3 1 2 (by norm_num) (by norm_num)⟩

/-! Spatial values from src/mathf/vector3.rs and src/mathf/vector4.rs. -/

structure Vector3 where
  x : ℝ
  y : ℝ
  z : ℝ

noncomputable instance : Add Vector3 :=
  ⟨fun a b => ⟨a.x + b.x, a.y + b.y, a.z + b.z⟩⟩

noncomputable instance : Sub Vector3 :=
  ⟨fun a b => ⟨a.x - b.x, a.y - b.y, a.z - b.z⟩⟩

noncomputable instance : Neg Vector3 :=
  ⟨fun a => ⟨-a.x, -a.y, -a.z⟩⟩

/-- impl Mul<f64> for Vector3. -/
noncomputable def Vector3.smul (a : Vector3) (s : ℝ) : Vector3 :=
  ⟨a.x * s, a.y * s, a.z * s⟩

/-- Vector3::dot. -/
noncomputable def Vector3.dot (a b : Vector3) : ℝ :=
  a.x * b.x + a.y * b.y + a.z * b.z

/-- Vector3::magnitude. -/
noncomputable def Vector3.magnitude (a : Vector3) : ℝ :=
  Real.sqrt (a.x * a.x + a.y * a.y + a.z * a.z)

/-- Vector3::normalize: divide each component by the magnitude. -/
noncomputable def Vector3.normalize (a : Vector3) : Vector3 :=
  ⟨a.x / a.magnitude, a.y / a.magnitude, a.z / a.magnitude⟩

structure Vector4 where
  x : ℝ
  y : ℝ
  z : ℝ
  w : ℝ

/-- Matrix::multiply_vector4 with the source's explicit sums. -/
noncomputable def multiply_vector4 (m : Matrix (Fin 4) (Fin 4) ℝ) (v : Vector4) :
    Vector4 where
  x := m 0 0 * v.x + m 0 1 * v.y + m 0 2 * v.z + m 0 3 * v.w
  y := m 1 0 * v.x + m 1 1 * v.y + m 1 2 * v.z + m 1 3 * v.w
  z := m 2 0 * v.x + m 2 1 * v.y + m 2 2 * v.z + m 2 3 * v.w
  w := m 3 0 * v.x + m 3 1 * v.y + m 3 2 * v.z + m 3 3 * v.w

/-- Matrix::transpose. -/
noncomputable def transpose (m : Matrix (Fin 4) (Fin 4) ℝ) :
    Matrix (Fin 4) (Fin 4) ℝ :=
  Matrix.of fun row col => m col row

/-- Modelled from the spec: multiplyPoint of the linear-algebra kernel
(ray_tracer_lib's matrix.rs is not in src; the semantics — homogeneous
coordinate 1, drop w — also appears verbatim in Ray::transform for origins). -/
noncomputable def multiply_point (m : Matrix (Fin 4) (Fin 4) ℝ) (v : Vector3) :
    Vector3 :=
  let r := multiply_vector4 m ⟨v.x, v.y, v.z, 1⟩
  ⟨r.x, r.y, r.z⟩

/-- Modelled from the spec: multiplyVector of the linear-algebra kernel
(homogeneous coordinate 0, drop w; the semantics also appears verbatim in
Ray::transform for directions). -/
noncomputable def multiply_vector (m : Matrix (Fin 4) (Fin 4) ℝ) (v : Vector3) :
    Vector3 :=
  let r := multiply_vector4 m ⟨v.x, v.y, v.z, 0⟩
  ⟨r.x, r.y, r.z⟩

/-! Ray from src/mathf/ray.rs. -/

structure Ray where
  origin : Vector3
  direction : Vector3

/-- Ray::position: origin + direction * t. -/
noncomputable def Ray.position (self : Ray) (t : ℝ) : Vector3 :=
  self.origin + self.direction.smul t

/-- Ray::transform: origin with w = 1, direction with w = 0, through
multiply_vector4, dropping w afterwards. -/
noncomputable def Ray.transform (self : Ray) (matrix : Matrix (Fin 4) (Fin 4) ℝ) :
    Ray :=
  let origin := multiply_vector4 matrix ⟨self.origin.x, self.origin.y, self.origin.z, 1⟩
  let direction :=
    multiply_vector4 matrix ⟨self.direction.x, self.direction.y, self.direction.z, 0⟩
  { origin := ⟨origin.x, origin.y, origin.z⟩
    direction := ⟨direction.x, direction.y, direction.z⟩ }

/-! Color and Material from src/color.rs and src/material.rs. -/

structure Color where
  r : ℝ
  g : ℝ
  b : ℝ

noncomputable instance : Add Color :=
  ⟨fun a b => ⟨a.r + b.r, a.g + b.g, a.b + b.b⟩⟩

/-- Color::multiply_scalar. -/
noncomputable def Color.multiply_scalar (self : Color) (rhs : ℝ) : Color :=
  ⟨self.r * rhs, self.g * rhs, self.b * rhs⟩

/-- Color::multiply_color (Hadamard product). -/
noncomputable def Color.multiply_color (self rhs : Color) : Color :=
  ⟨self.r * rhs.r, self.g * rhs.g, self.b * rhs.b⟩

/-- color::BLACK. -/
def BLACK : Color := ⟨0, 0, 0⟩

/-- impl PartialEq for Color: component-wise approximate equality. -/
def Color.approx_eq (a b : Color) : Prop :=
  approximately a.r b.r ∧ approximately a.g b.g ∧ approximately a.b b.b

structure Material where
  color : Color
  ambient : ℝ
  diffuse : ℝ
  specular : ℝ
  shininess : ℝ

/-- Material::new, the default material. -/
noncomputable def Material.new : Material :=
  { color := ⟨1, 1, 1⟩, ambient := 0.1, diffuse := 0.9, specular := 0.9,
    shininess := 200 }

/-- impl PartialEq for Material: approximate structural equality. -/
def Material.approx_eq (a b : Material) : Prop :=
  Color.approx_eq a.color b.color ∧ approximately a.ambient b.ambient ∧
  approximately a.diffuse b.diffuse ∧ approximately a.specular b.specular ∧
  approximately a.shininess b.shininess

structure PointLight where
  position : Vector3
  intensity : Color

/-! Shapes.  src/mathf/sphere.rs stores an identity id, a material, a
transform and its cached inverse; src/mathf/plane.rs stores the same without
an id.  The Shape capability interface is from
ray_tracer_lib/src/mathf/shapes.rs. -/

structure Sphere where
  id : ℕ
  material : Material
  transform : Matrix (Fin 4) (Fin 4) ℝ
  inverse_transform : Matrix (Fin 4) (Fin 4) ℝ

/-- impl PartialEq for Sphere from src/mathf/sphere.rs: identity comparison. -/
def Sphere.eq (self other : Sphere) : Prop := self.id = other.id

structure Plane where
  material : Material
  transform : Matrix (Fin 4) (Fin 4) ℝ
  inverse_transform : Matrix (Fin 4) (Fin 4) ℝ

/-- Plane::local_eq from src/mathf/plane.rs: same material OR same
transform, both after the approximate PartialEq of the component types. -/
def Plane.local_eq (self other : Plane) : Prop :=
  Material.approx_eq self.material other.material ∨
  matrix_approx_eq self.transform other.transform

/-- The closed variant set of the shape capability interface. -/
inductive Shape where
  | sphere : Sphere → Shape
  | plane : Plane → Shape

def Shape.material : Shape → Material
  | .sphere s => s.material
  | .plane p => p.material

def Shape.inverse_transform : Shape → Matrix (Fin 4) (Fin 4) ℝ
  | .sphere s => s.inverse_transform
  | .plane p => p.inverse_transform

/-- local_normal_at per variant: the sphere returns the object point minus
the origin, the plane the constant (0, 1, 0). -/
noncomputable def Shape.local_normal_at : Shape → Vector3 → Vector3
  | .sphere _, object_point => object_point - (⟨0, 0, 0⟩ : Vector3)
  | .plane _, _ => ⟨0, 1, 0⟩

/-- Shape::normal_at, the shared lifting from shapes.rs: object point by the
inverse transform, local normal, back by the transpose of the inverse
transform, then normalize. -/
noncomputable def Shape.normal_at (self : Shape) (world_point : Vector3) :
    Vector3 :=
  let object_normal :=
    self.local_normal_at (multiply_point self.inverse_transform world_point)
  let world_normal := multiply_vector (transpose self.inverse_transform) object_normal
  world_normal.normalize

/-! Intersections from src/mathf/intersection.rs. -/

structure Intersection where
  t : ℝ
  object : Shape

/-- Loop body of Intersections::hit: ignore records with negative t, adopt
the first nonnegative record, and replace the candidate when a strictly
lower nonnegative t appears. -/
noncomputable def hitStep (result : Option Intersection) (i : Intersection) :
    Option Intersection :=
  if 0 ≤ i.t then
    match result with
    | none => some i
    | some x => if i.t < x.t then some i else result
  else result

/-- Intersections::hit: one pass over the records keeping the lowest
nonnegative t. -/
noncomputable def hit (intersections : List Intersection) : Option Intersection :=
  intersections.foldl hitStep none

/-- Sphere::intersect from src/mathf/sphere.rs: transform the ray by the
cached inverse transform, then solve the unit-sphere quadratic. -/
noncomputable def sphere_intersect (sphere : Sphere) (world_ray : Ray) :
    List Intersection :=
  let object_ray := world_ray.transform sphere.inverse_transform
  let sphere_to_ray := object_ray.origin - (⟨0, 0, 0⟩ : Vector3)
  let a := object_ray.direction.dot object_ray.direction
  let b := 2 * object_ray.direction.dot sphere_to_ray
  let c := sphere_to_ray.dot sphere_to_ray - 1
  let discriminant := b * b - 4 * a * c
  if discriminant < 0 then []
  else
    let disc_root := Real.sqrt discriminant
    let t1 := (-b - disc_root) / (2 * a)
    let t2 := (-b + disc_root) / (2 * a)
    [⟨t1, Shape.sphere sphere⟩, ⟨t2, Shape.sphere sphere⟩]

structure Computations where
  t : ℝ
  object : Shape
  point : Vector3
  eye_vector : Vector3
  normal_vector : Vector3
  is_inside : Bool
  over_point : Vector3

/-- Intersection::prepare_computations. -/
noncomputable def Intersection.prepare_computations (self : Intersection)
    (ray : Ray) : Computations :=
  let point := ray.position self.t
  let eye_vector := -ray.direction
  let normal_vector := self.object.normal_at point
  if normal_vector.dot eye_vector < 0 then
    { t := self.t, object := self.object, point := point,
      eye_vector := eye_vector, normal_vector := -normal_vector,
      is_inside := true,
      over_point := point + (-normal_vector).smul EPSILON }
  else
    { t := self.t, object := self.object, point := point,
      eye_vector := eye_vector, normal_vector := normal_vector,
      is_inside := false,
      over_point := point + normal_vector.smul EPSILON }

/-! Phong shading from src/phong_lighting.rs. -/

/-- sphere::reflect: v - n * 2 * (v . n). -/
noncomputable def reflect (vector normal : Vector3) : Vector3 :=
  vector - (normal.smul 2).smul (vector.dot normal)

/-- phong_lighting::lighting. -/
noncomputable def lighting (material : Material) (light : PointLight)
    (point eye_vector normal_vector : Vector3) (in_shadow : Bool) : Color :=
  let effective_color := material.color.multiply_color light.intensity
  let ambient := effective_color.multiply_scalar material.ambient
  if in_shadow then ambient
  else
    let light_vector := (light.position - point).normalize
    let light_dot_normal := light_vector.dot normal_vector
    if light_dot_normal < 0 then ambient + BLACK + BLACK
    else
      let diffuse :=
        (effective_color.multiply_scalar material.diffuse).multiply_scalar
          light_dot_normal
      let reflect_vector := reflect (-light_vector) normal_vector
      let reflect_dot_eye := reflect_vector.dot eye_vector
      if reflect_dot_eye ≤ 0 then ambient + diffuse + BLACK
      else
        let factor := reflect_dot_eye ^ material.shininess
        let specular :=
          (light.intensity.multiply_scalar material.specular).multiply_scalar
            factor
        ambient + diffuse + specular

/-! World from src/world.rs. -/

structure World where
  light : Option PointLight
  objects : List Sphere

/-- World::intersect: intersect every owned sphere, concatenate in object
order, then stable-sort ascending by t (sort_by with partial_cmp). -/
noncomputable def World.intersect (self : World) (ray : Ray) :
    List Intersection :=
  (self.objects.flatMap fun object => sphere_intersect object ray).mergeSort
    fun a b => decide (a.t ≤ b.t)

/-- World::is_shadowed: cast a ray from the point toward the light; shadowed
when some hit is strictly closer than the light (none models the unwrap panic
on a world without a light, which shade_hit rules out before calling). -/
noncomputable def World.is_shadowed (self : World) (point : Vector3) :
    Option Bool :=
  match self.light with
  | none => none
  | some light =>
    let vector := light.position - point
    let distance := vector.magnitude
    let direction := vector.normalize
    let ray : Ray := ⟨point, direction⟩
    some (match hit (self.intersect ray) with
      | none => false
      | some h => decide (h.t < distance))

/-- World::shade_hit: panics (none) when no light is configured, otherwise
lights the precomputed hit, gated by the shadow test at the over point. -/
noncomputable def World.shade_hit (self : World) (computations : Computations) :
    Option Color :=
  match self.light with
  | none => none
  | some light =>
    match self.is_shadowed computations.over_point with
    | none => none
    | some shadowed =>
      some (lighting computations.object.material light computations.point
        computations.eye_vector computations.normal_vector shadowed)

/-- World::color_at: black when the ray hits nothing, otherwise shade the
hit. -/
noncomputable def World.color_at (self : World) (ray : Ray) : Option Color :=
  match hit (self.intersect ray) with
  | none => some BLACK
  | some i => self.shade_hit (i.prepare_computations ray)

theorem hitStep_of_neg {i : Intersection} (h : i.t < 0)
    (acc : Option Intersection) : hitStep acc i = acc := by
  rw [hitStep.eq_def, if_neg (not_le.mpr h)]

theorem hitStep_none {i : Intersection} (h : 0 ≤ i.t) :
    hitStep none i = some i := by
  rw [hitStep.eq_def, if_pos h]

theorem hitStep_some_lt {i x : Intersection} (h : 0 ≤ i.t) (hlt : i.t < x.t) :
    hitStep (some x) i = some i := by
  rw [hitStep.eq_def, if_pos h]
  exact if_pos hlt

theorem hitStep_some_ge {i x : Intersection} (h : 0 ≤ i.t) (hge : ¬ i.t < x.t) :
    hitStep (some x) i = some x := by
  rw [hitStep.eq_def, if_pos h]
  exact if_neg hge

/-- Invariant of the hit loop, for an arbitrary accumulator. -/
theorem hit_loop_spec (xs : List Intersection) : ∀ acc : Option Intersection,
    (xs.foldl hitStep acc = none ↔ (acc = none ∧ ∀ i ∈ xs, i.t < 0)) ∧
    (∀ j, xs.foldl hitStep acc = some j →
      (acc = some j ∨ (j ∈ xs ∧ 0 ≤ j.t)) ∧
      (∀ k ∈ xs, 0 ≤ k.t → j.t ≤ k.t) ∧
      (∀ y, acc = some y → j.t ≤ y.t)) := by
  induction xs with
  | nil =>
    intro acc
    refine ⟨by simp, ?_⟩
    intro j hj
    simp only [List.foldl_nil] at hj
    subst hj
    exact ⟨Or.inl rfl, by simp, fun y hy => by rw [Option.some_inj] at hy; rw [hy]⟩
  | cons i rest ih =>
    intro acc
    rw [List.foldl_cons]
    by_cases hti : 0 ≤ i.t
    · have hstep : ∀ j, hitStep acc i = some j →
          (acc = some j ∨ (j = i ∧ 0 ≤ j.t)) ∧ (j.t ≤ i.t) ∧
          (∀ y, acc = some y → j.t ≤ y.t) := by
        intro j hj
        match acc with
        | none =>
          rw [hitStep_none hti, Option.some_inj] at hj
          subst hj
          exact ⟨Or.inr ⟨rfl, hti⟩, le_refl _, by simp⟩
        | some x =>
          by_cases hlt : i.t < x.t
          · rw [hitStep_some_lt hti hlt, Option.some_inj] at hj
            subst hj
            exact ⟨Or.inr ⟨rfl, hti⟩, le_refl _,
              fun y hy => by rw [Option.some_inj] at hy; rw [← hy]; exact le_of_lt hlt⟩
          · rw [hitStep_some_ge hti hlt, Option.some_inj] at hj
            subst hj
            exact ⟨Or.inl rfl, not_lt.mp hlt,
              fun y hy => by rw [Option.some_inj] at hy; rw [hy]⟩
      have hsome : ∀ acc2, hitStep acc2 i ≠ none := by
        intro acc2 hcontra
        match acc2 with
        | none => rw [hitStep_none hti] at hcontra; exact absurd hcontra (by simp)
        | some x =>
          by_cases hlt : i.t < x.t
          · rw [hitStep_some_lt hti hlt] at hcontra; exact absurd hcontra (by simp)
          · rw [hitStep_some_ge hti hlt] at hcontra; exact absurd hcontra (by simp)
      constructor
      · rw [(ih (hitStep acc i)).1]
        constructor
        · rintro ⟨hnone, -⟩
          exact absurd hnone (hsome acc)
        · rintro ⟨-, hall⟩
          exact absurd (hall i (by simp)) (not_lt.mpr hti)
      · intro j hj
        obtain ⟨hmem, hmin, hacc⟩ := (ih (hitStep acc i)).2 j hj
        rcases hmem with hacc2 | ⟨hjrest, hjt⟩
        · obtain ⟨hmem2, hle2, hacc3⟩ := hstep j hacc2
          rcases hmem2 with h | ⟨hji, hjt⟩
          · refine ⟨Or.inl h, ?_, hacc3⟩
            intro k hk hkt
            rcases List.mem_cons.mp hk with hk | hk
            · rw [hk]; exact hle2
            · exact hmin k hk hkt
          · refine ⟨Or.inr ⟨by rw [hji]; exact List.mem_cons_self i rest, hjt⟩, ?_, hacc3⟩
            intro k hk hkt
            rcases List.mem_cons.mp hk with hk | hk
            · rw [hk]; exact hle2
            · exact hmin k hk hkt
        · refine ⟨Or.inr ⟨List.mem_cons_of_mem i hjrest, hjt⟩, ?_, ?_⟩
          · intro k hk hkt
            rcases List.mem_cons.mp hk with hk | hk
            · rw [hk]
              rcases hstep_total : hitStep acc i with _ | z
              · exact absurd hstep_total (hsome acc)
              · obtain ⟨-, hle2, -⟩ := hstep z hstep_total
                exact le_trans (hacc z hstep_total) hle2
            · exact hmin k hk hkt
          · intro y hy
            rcases hstep_total : hitStep acc i with _ | z
            · exact absurd hstep_total (hsome acc)
            · obtain ⟨-, -, hacc3⟩ := hstep z hstep_total
              exact le_trans (hacc z hstep_total) (hacc3 y hy)
    · have hneg : i.t < 0 := not_le.mp hti
      rw [hitStep_of_neg hneg]
      constructor
      · rw [(ih acc).1]
        constructor
        · rintro ⟨h1, h2⟩
          refine ⟨h1, ?_⟩
          intro k hk
          rcases List.mem_cons.mp hk with hk | hk
          · rw [hk]; exact hneg
          · exact h2 k hk
        · rintro ⟨h1, h2⟩
          exact ⟨h1, fun k hk => h2 k (List.mem_cons_of_mem i hk)⟩
      · intro j hj
        obtain ⟨hmem, hmin, hacc⟩ := (ih acc).2 j hj
        refine ⟨?_, ?_, hacc⟩
        · rcases hmem with h | ⟨h1, h2⟩
          · exact Or.inl h
          · exact Or.inr ⟨List.mem_cons_of_mem i h1, h2⟩
        · intro k hk hkt
          rcases List.mem_cons.mp hk with hk | hk
          · exact absurd hkt (by rw [hk]; exact not_le.mpr hneg)
          · exact hmin k hk hkt

/-- C3: hit returns none exactly when every record has negative t; otherwise
it returns a record of the collection with the minimum nonnegative t, never a
record with negative t. -/
theorem c3_hit_spec (xs : List Intersection) :
    (hit xs = none ↔ ∀ i ∈ xs, i.t < 0) ∧
    (∀ j, hit xs = some j →
      j ∈ xs ∧ 0 ≤ j.t ∧ ∀ k ∈ xs, 0 ≤ k.t → j.t ≤ k.t) := by
  have h := hit_loop_spec xs none
  constructor
  · rw [hit, h.1]
    simp
  · intro j hj
    obtain ⟨hmem, hmin, -⟩ := h.2 j hj
    rcases hmem with h | ⟨h1, h2⟩
    · exact absurd h (by simp)
    · exact ⟨h1, h2, hmin⟩

/-! Concrete scene pieces used by the closed witness statements. -/

noncomputable def test_sphere : Sphere :=
  ⟨1, Material.new, identity_4x4, identity_4x4⟩

noncomputable def test_sphere_two : Sphere :=
  ⟨2, Material.new, identity_4x4, identity_4x4⟩

noncomputable def test_shape : Shape := Shape.sphere test_sphere

noncomputable def test_ray : Ray := ⟨⟨0, 0, -5⟩, ⟨0, 0, 1⟩⟩

noncomputable def no_light_world : World := ⟨none, []⟩

/-- Witness for C3 on the spec's example t-values 5, 7, -3, 2. -/
theorem c3_hit_spec_witness :
    (⟨2, test_shape⟩ : Intersection) ∈
      ([⟨5, test_shape⟩, ⟨7, test_shape⟩, ⟨-3, test_shape⟩, ⟨2, test_shape⟩] :
        List Intersection) ∧
    0 ≤ (⟨2, test_shape⟩ : Intersection).t ∧
    ∀ k ∈ ([⟨5, test_shape⟩, ⟨7, test_shape⟩, ⟨-3, test_shape⟩, ⟨2, test_shape⟩] :
        List Intersection), 0 ≤ k.t → (⟨2, test_shape⟩ : Intersection).t ≤ k.t := by
  refine (c3_hit_spec _).2 _ ?_
  rw [hit, List.foldl_cons, hitStep_none (by norm_num), List.foldl_cons,
    hitStep_some_ge (by norm_num) (by norm_num), List.foldl_cons,
    hitStep_of_neg (by norm_num), List.foldl_cons,
    hitStep_some_lt (by norm_num) (by norm_num), List.foldl_nil]

/-- C4: Sphere::intersect transforms the ray by the cached inverse transform
and solves the unit-sphere quadratic: negative discriminant gives the empty
list, otherwise exactly the two roots in ascending order, each wrapped with
the sphere handle. -/
theorem c4_sphere_intersect_spec (sphere : Sphere) (ray : Ray)
    (hd : ray.direction ≠ (⟨0, 0, 0⟩ : Vector3)) :
    let object_ray := ray.transform sphere.inverse_transform
    let sphere_to_ray := object_ray.origin - (⟨0, 0, 0⟩ : Vector3)
    let a := object_ray.direction.dot object_ray.direction
    let b := 2 * object_ray.direction.dot sphere_to_ray
    let c := sphere_to_ray.dot sphere_to_ray - 1
    let discriminant := b * b - 4 * a * c
    (discriminant < 0 → sphere_intersect sphere ray = []) ∧
    (0 ≤ discriminant →
      sphere_intersect sphere ray =
        [⟨(-b - Real.sqrt discriminant) / (2 * a), Shape.sphere sphere⟩,
         ⟨(-b + Real.sqrt discriminant) / (2 * a), Shape.sphere sphere⟩] ∧
      (-b - Real.sqrt discriminant) / (2 * a) ≤
        (-b + Real.sqrt discriminant) / (2 * a)) := by
  intro object_ray sphere_to_ray a b c discriminant
  constructor
  · intro hneg
    show (if discriminant < 0 then ([] : List Intersection) else
      let disc_root := Real.sqrt discriminant
      let t1 := (-b - disc_root) / (2 * a)
      let t2 := (-b + disc_root) / (2 * a)
      [⟨t1, Shape.sphere sphere⟩, ⟨t2, Shape.sphere sphere⟩]) = []
    exact if_pos hneg
  · intro hpos
    have hcond : ¬ discriminant < 0 := not_lt.mpr hpos
    constructor
    · show (if discriminant < 0 then ([] : List Intersection) else
        let disc_root := Real.sqrt discriminant
        let t1 := (-b - disc_root) / (2 * a)
        let t2 := (-b + disc_root) / (2 * a)
        [⟨t1, Shape.sphere sphere⟩, ⟨t2, Shape.sphere sphere⟩]) = _
      exact if_neg hcond
    · have hs : 0 ≤ Real.sqrt discriminant := Real.sqrt_nonneg _
      have hnum : -b - Real.sqrt discriminant ≤ -b + Real.sqrt discriminant := by
        linarith
      have ha : 0 ≤ a := by
        show 0 ≤ object_ray.direction.dot object_ray.direction
        simp only [Vector3.dot]
        have h1 := mul_self_nonneg object_ray.direction.x
        have h2 := mul_self_nonneg object_ray.direction.y
        have h3 := mul_self_nonneg object_ray.direction.z
        linarith
      exact div_le_div_of_nonneg_right hnum (by linarith)

/-- Witness for C4: the unit sphere and the ray from (0,0,-5) along +z. -/
theorem c4_sphere_intersect_spec_witness :
    test_ray.direction ≠ (⟨0, 0, 0⟩ : Vector3) ∧
    (let object_ray := test_ray.transform test_sphere.inverse_transform
     let sphere_to_ray := object_ray.origin - (⟨0, 0, 0⟩ : Vector3)
     let a := object_ray.direction.dot object_ray.direction
     let b := 2 * object_ray.direction.dot sphere_to_ray
     let c := sphere_to_ray.dot sphere_to_ray - 1
     let discriminant := b * b - 4 * a * c
     (discriminant < 0 → sphere_intersect test_sphere test_ray = []) ∧
     (0 ≤ discriminant →
       sphere_intersect test_sphere test_ray =
         [⟨(-b - Real.sqrt discriminant) / (2 * a), Shape.sphere test_sphere⟩,
          ⟨(-b + Real.sqrt discriminant) / (2 * a), Shape.sphere test_sphere⟩] ∧
       (-b - Real.sqrt discriminant) / (2 * a) ≤
         (-b + Real.sqrt discriminant) / (2 * a))) :=
  have hd : test_ray.direction ≠ (⟨0, 0, 0⟩ : Vector3) := fun h =>
    one_ne_zero (congrArg Vector3.z h)
  ⟨hd, c4_sphere_intersect_spec test_sphere test_ray hd⟩

/-- C5: World::intersect returns a permutation of the concatenation, in
object-list order, of the per-sphere intersections, sorted ascending by t
(over the real-number model every t comparison is total, so the partial_cmp
unwrap never fails). -/
theorem c5_world_intersect_spec (w : World) (ray : Ray) :
    List.Perm (w.intersect ray)
      (w.objects.flatMap fun object => sphere_intersect object ray) ∧
    List.Pairwise (fun a b : Intersection => a.t ≤ b.t) (w.intersect ray) := by
  rw [World.intersect]
  constructor
  · exact List.mergeSort_perm _ _
  · have h := @List.sorted_mergeSort Intersection
      (fun a b : Intersection => decide (a.t ≤ b.t))
      (fun a b c hab hbc => by
        simp only [decide_eq_true_eq] at hab hbc ⊢
        exact le_trans hab hbc)
      (fun a b => by
        rcases le_total a.t b.t with h | h <;> simp [h])
      (w.objects.flatMap fun object => sphere_intersect object ray)
    exact h.imp fun hab => by simpa using hab

/-- C6: prepare_computations produces the hit point at t, the negated ray
direction as eye vector, the inside flag exactly when normal . eye < 0 (with
the normal negated in that case), and the over point offset by EPSILON along
the possibly negated normal. -/
theorem c6_prepare_computations_spec (i : Intersection) (ray : Ray) :
    (i.prepare_computations ray).t = i.t ∧
    (i.prepare_computations ray).object = i.object ∧
    (i.prepare_computations ray).point = ray.position i.t ∧
    (i.prepare_computations ray).eye_vector = -ray.direction ∧
    ((i.prepare_computations ray).is_inside = true ↔
      (i.object.normal_at (ray.position i.t)).dot (-ray.direction) < 0) ∧
    (i.prepare_computations ray).normal_vector =
      (if (i.object.normal_at (ray.position i.t)).dot (-ray.direction) < 0
       then -(i.object.normal_at (ray.position i.t))
       else i.object.normal_at (ray.position i.t)) ∧
    (i.prepare_computations ray).over_point =
      ray.position i.t +
        ((i.prepare_computations ray).normal_vector).smul EPSILON := by
  by_cases hdot : (i.object.normal_at (ray.position i.t)).dot (-ray.direction) < 0
  · simp [Intersection.prepare_computations, hdot]
  · simp [Intersection.prepare_computations, hdot]

/-- C7: lighting with in_shadow = true returns exactly the ambient term,
independent of point, eye vector and normal vector. -/
theorem c7_lighting_in_shadow (material : Material) (light : PointLight)
    (point eye_vector normal_vector : Vector3) :
    lighting material light point eye_vector normal_vector true =
      (material.color.multiply_color light.intensity).multiply_scalar
        material.ambient := by
  simp [lighting]

/-- C8 counterexample: a world with no light still produces a color (black)
through color_at when the ray hits nothing, so color_at on a light-less world
does not always fail. -/
theorem c8_color_at_counterexample :
    no_light_world.light = none ∧
    no_light_world.color_at test_ray = some BLACK := by
  refine ⟨rfl, ?_⟩
  have h1 : no_light_world.intersect test_ray = [] := by
    rw [World.intersect]
    exact List.mergeSort_nil
  simp [World.color_at, h1, hit]

/-- C8 amended: on a world with no light, color_at fails exactly when the ray
hits some object; when the ray hits nothing it returns black without
consulting the light. -/
theorem c8_no_light_spec (w : World) (ray : Ray) (hl : w.light = none) :
    (w.color_at ray = none ↔ (hit (w.intersect ray)).isSome) ∧
    (hit (w.intersect ray) = none → w.color_at ray = some BLACK) := by
  constructor
  · rcases hhit : hit (w.intersect ray) with _ | i
    · simp [World.color_at, hhit]
    · simp [World.color_at, hhit, World.shade_hit, hl]
  · intro hhit
    simp [World.color_at, hhit]

/-- Witness for C8 (amended) on the empty light-less world, whose miss ray
indeed yields black. -/
theorem c8_no_light_spec_witness :
    no_light_world.light = none ∧
    (no_light_world.color_at test_ray = none ↔
      (hit (no_light_world.intersect test_ray)).isSome) ∧
    no_light_world.color_at test_ray = some BLACK := by
  have hl : no_light_world.light = none := rfl
  have hnone : hit (no_light_world.intersect test_ray) = none := by
    have h1 : no_light_world.intersect test_ray = [] := by
      rw [World.intersect]
      exact List.mergeSort_nil
    rw [h1]
    rfl
  exact ⟨hl, (c8_no_light_spec no_light_world test_ray hl).1,
    (c8_no_light_spec no_light_world test_ray hl).2 hnone⟩

/-- C9 counterexample: two spheres with identical (default) material and
identical (identity) transform but distinct identities are unequal under
Sphere's PartialEq, although the claimed criterion (same material or same
transform) holds for them. -/
theorem c9_sphere_eq_counterexample :
    (Material.approx_eq test_sphere.material test_sphere_two.material ∨
      matrix_approx_eq test_sphere.transform test_sphere_two.transform) ∧
    ¬ Sphere.eq test_sphere test_sphere_two := by
  constructor
  · left
    exact ⟨⟨approximately_refl _, approximately_refl _, approximately_refl _⟩,
      approximately_refl _, approximately_refl _, approximately_refl _,
      approximately_refl _⟩
  · intro h
    simp [Sphere.eq, test_sphere, test_sphere_two] at h

/-- C9 amended: Plane::local_eq holds exactly when the materials or the
transforms agree approximately; Sphere's PartialEq holds exactly when the two
process-lifetime identities agree. -/
theorem c9_shape_equality_spec :
    (∀ p1 p2 : Plane, Plane.local_eq p1 p2 ↔
      (Material.approx_eq p1.material p2.material ∨
        matrix_approx_eq p1.transform p2.transform)) ∧
    (∀ s1 s2 : Sphere, Sphere.eq s1 s2 ↔ s1.id = s2.id) :=
  ⟨fun _ _ => Iff.rfl, fun _ _ => Iff.rfl⟩

end RayTracer
